import Mathlib

/-!
Shallow embedding of the contract-retrieval / extractive-answering engine and its
evaluation harness (source files app/rag_model.py and app/metrics_rag.py), together
with theorems settling the frozen claims about this code.

Modelling conventions:
* Python strings are Lean `String`s; Python `needle in hay` is `strIn`.
* Python floats are embedded as exact rationals (`ℚ`); the one place where a
  genuinely irrational function appears (math.log2 inside the nDCG computation)
  uses `Real.logb 2`.
* The sklearn / numpy / sentence-transformers similarity backends and the `re`
  regular-expression engine are outside collaborators from the engine's point of
  view; they are abstracted as function parameters (`simOf`, `sim`, `oracle`) and
  theorems quantify over all of their behaviours.
* Fallible spots of the Python code (list indexing that can raise IndexError, a
  load that can raise ValueError) are embedded with `Except String`.
-/

namespace RagSpec

/-- Does the character list start with the given needle (prefix check on chars)? -/
def startsWithL : List Char → List Char → Bool
  | _, [] => true
  | [], _ :: _ => false
  | c :: cs, d :: ds => c == d && startsWithL cs ds

/-- Substring containment on character lists: the Python operator
`needle in hay` restricted to plain (non-empty-pattern-quirk-free) semantics;
an empty needle is contained in everything, as in Python. -/
def containsL : List Char → List Char → Bool
  | [], needle => needle.isEmpty
  | c :: cs, needle => startsWithL (c :: cs) needle || containsL cs needle

/-- Python `needle in hay` on strings. -/
def strIn (needle hay : String) : Bool :=
  containsL hay.toList needle.toList

/-- Python `s.lower()` (character-wise lower-casing). -/
def pyLower (s : String) : String :=
  String.mk (s.data.map Char.toLower)

/-- Embedding of `_rewrite_query` (app/rag_model.py, lines 149-160): lower-case the
query, append a fixed boost-term list for every matched legal intent, and return
`q + " " + " ".join(boosts)`. -/
def rewriteQuery (q : String) : String :=
  let ql := pyLower q
  let b1 : List String :=
    if strIn "govern" ql || strIn "law" ql || strIn "jurisd" ql then
      ["\"governing law\"", "construed", "enforced", "laws of", "state of"]
    else []
  let b2 : List String :=
    if strIn "terminat" ql || strIn "expire" ql then
      ["termination", "notice", "\"prior written notice\"", "insolvent",
       "mutual written agreement"]
    else []
  let b3 : List String :=
    if ["payment", "fee", "fees", "charges", "settle", "compensation",
        "consideration", "remuneration"].any (fun x => strIn x ql) then
      ["payment", "pass-through", "monthly", "charge", "settle", "net basis",
       "invoice", "due date", "late fee"]
    else []
  let b4 : List String :=
    if strIn "parties" ql || strIn "roles" ql then
      ["by and among", "between", "affiliate", "service provider",
       "service recipient"]
    else []
  q ++ " " ++ String.intercalate " " (b1 ++ b2 ++ b3 ++ b4)

/-- True iff at least one of the four intent keyword sets of `_rewrite_query`
matches the lower-cased query (the source's four `if` conditions). -/
def rewriteTriggered (q : String) : Bool :=
  let ql := pyLower q
  (strIn "govern" ql || strIn "law" ql || strIn "jurisd" ql) ||
  (strIn "terminat" ql || strIn "expire" ql) ||
  (["payment", "fee", "fees", "charges", "settle", "compensation",
    "consideration", "remuneration"].any (fun x => strIn x ql)) ||
  (strIn "parties" ql || strIn "roles" ql)

theorem string_append_empty (s : String) : s ++ "" = s := by
  cases s
  show String.mk _ = String.mk _
  simp [String.append]

/-- C3 counterexample: the query "hello" matches no intent keyword set, yet
`_rewrite_query` does not return it unchanged — it appends a trailing space. -/
theorem rewrite_query_hello_changed :
    rewriteTriggered "hello" = false ∧ rewriteQuery "hello" ≠ "hello" := by
  constructor
  · decide
  · decide

/-- C3 (amended): for every query in which no intent keyword set matches,
`_rewrite_query` returns the query with a single trailing space appended
(`q + " "`), not the query itself byte-for-byte. -/
theorem rewrite_query_no_intent_appends_space (q : String)
    (h : rewriteTriggered q = false) : rewriteQuery q = q ++ " " := by
  unfold rewriteTriggered at h
  simp only [Bool.or_eq_false_iff] at h
  obtain ⟨⟨⟨h1, h2⟩, h3⟩, h4⟩ := h
  unfold rewriteQuery
  simp only [h1, h2, h3, h4, Bool.false_eq_true, if_false, List.append_nil]
  show q ++ " " ++ String.intercalate " " [] = q ++ " "
  have : String.intercalate " " [] = "" := rfl
  rw [this, string_append_empty]

/-- C3 witness: the amended statement evaluated at the concrete query "hello". -/
theorem rewrite_query_no_intent_witness : rewriteQuery "hello" = "hello" ++ " " :=
  rewrite_query_no_intent_appends_space "hello" (by decide)

/-- A retrieval candidate / hit: the `(id, score, text)` triple flowing between
`_search`, `mmr` and `extractive_answer` in app/rag_model.py. -/
structure Cand where
  id : String
  score : ℚ
  text : String
deriving DecidableEq

instance : Inhabited Cand := ⟨⟨"", 0, ""⟩⟩

/-- numpy `sims.argsort()[::-1]`: the indices `0..n-1` ordered by descending
similarity value (ties in some definite order; only the ordering-by-value and the
length matter to the claims). -/
def argsortDesc (sims : List ℚ) : List ℕ :=
  List.insertionSort (fun i j => sims.getD j 0 ≤ sims.getD i 0) (List.range sims.length)

/-- Embedding of the sparse branch of `_search` (app/rag_model.py, lines 360-367):
rewrite the query, obtain cosine similarities from the vectorizer backend
(abstracted as `simOf`, one rational per corpus row), sort indices by descending
similarity, truncate to the fixed pool size `topn = 50`, and materialize the
`(id, score, text)` candidates.  Note: the requested count `k` is not consulted. -/
def searchTfidf (simOf : String → List ℚ) (ids texts : List String)
    (query : String) (k : ℕ) : List Cand :=
  let q := rewriteQuery query
  let sims := simOf q
  let order := (argsortDesc sims).take 50
  order.map (fun i => ⟨ids.getD i "", sims.getD i 0, texts.getD i ""⟩)

/-- Embedding of the dense branch of `_search` (app/rag_model.py, lines 368-375):
same shape as the sparse branch, but the pool size is `max(k, 50)`. -/
def searchSbert (simOf : String → List ℚ) (ids texts : List String)
    (query : String) (k : ℕ) : List Cand :=
  let q := rewriteQuery query
  let sims := simOf q
  let order := (argsortDesc sims).take (max k 50)
  order.map (fun i => ⟨ids.getD i "", sims.getD i 0, texts.getD i ""⟩)

/-- C2 counterexample: on a 51-row corpus with requested `k = 51`, the sparse
(tfidf) engine's candidate pool has 50 entries, not `min (max k 50) corpus = 51`:
the tfidf branch of `_search` uses the fixed `topn = 50` and ignores `k`. -/
theorem search_tfidf_pool_not_max_k_50 :
    (searchTfidf (fun _ => List.replicate 51 (0 : ℚ)) (List.replicate 51 "")
        (List.replicate 51 "") "q" 51).length ≠
      min (max 51 50) (List.replicate 51 (0 : ℚ)).length := by
  simp [searchTfidf, argsortDesc]

/-- C2 (amended): for every similarity backend, corpus, query and requested count
`k`, the sparse (tfidf) engine asks for a fixed candidate pool of size 50
(truncated to the corpus size), while the dense (sbert) engine asks for a pool of
size `max(k, 50)` (truncated to the corpus size). -/
theorem search_pool_sizes (simOf : String → List ℚ) (ids texts : List String)
    (query : String) (k : ℕ) :
    (searchTfidf simOf ids texts query k).length =
      min 50 (simOf (rewriteQuery query)).length ∧
    (searchSbert simOf ids texts query k).length =
      min (max k 50) (simOf (rewriteQuery query)).length := by
  constructor <;>
    simp [searchTfidf, searchSbert, argsortDesc, List.length_take,
      List.length_insertionSort, List.length_range]

/-- Python `max(l)` on a non-empty list of floats (0 for the empty list, which the
source never hits). -/
def listMax : List ℚ → ℚ
  | [] => 0
  | x :: xs => xs.foldl max x

/-- Python `max(iterable, key=f)`: the first element attaining the maximal key. -/
def pickMax (f : ℕ → ℚ) (x : ℕ) (xs : List ℕ) : ℕ :=
  xs.foldl (fun b j => if f b < f j then j else b) x

theorem pickMax_mem (f : ℕ → ℚ) (x : ℕ) (xs : List ℕ) :
    pickMax f x xs = x ∨ pickMax f x xs ∈ xs := by
  unfold pickMax
  induction xs generalizing x with
  | nil => exact Or.inl rfl
  | cons y ys ih =>
    rw [List.foldl_cons]
    by_cases hxy : f x < f y
    · rw [if_pos hxy]
      rcases ih y with h | h
      · exact Or.inr (by simp [h])
      · exact Or.inr (by simp [h])
    · rw [if_neg hxy]
      rcases ih x with h | h
      · exact Or.inl h
      · exact Or.inr (by simp [h])

/-- The greedy selection loop of `mmr` (app/rag_model.py, lines 213-221):
`while remaining and len(selected) < k`, pick the argmax of the current score
function (plain normalized relevance on the first pick, the MMR combination
afterwards), append it to `selected` and delete it from `remaining`. -/
def mmrLoop (k : ℕ) (score : List ℕ → ℕ → ℚ) (selected : List ℕ) :
    List ℕ → List ℕ
  | [] => selected
  | j :: js =>
    if k ≤ selected.length then selected
    else
      let i := pickMax (score selected) j js
      mmrLoop k score (selected ++ [i]) ((j :: js).erase i)
termination_by rem => rem.length
decreasing_by
  have hmem : pickMax (score selected) j js = j ∨ pickMax (score selected) j js ∈ js :=
    pickMax_mem _ _ _
  have hmem' : pickMax (score selected) j js ∈ j :: js := by
    rcases hmem with h | h
    · simp [h]
    · simp [h]
  have := List.length_erase_of_mem hmem'
  simp only [this, List.length_cons]
  omega

/-- The normalized relevance list of `mmr`: `rel = [c.score for c in cands]`
divided by `max(rel) or 1.0` (the falsy-zero guard of the source). -/
def mmrRel (cands : List Cand) : List ℚ :=
  let rel0 := cands.map Cand.score
  let m0 := listMax rel0
  let m := if m0 = 0 then 1 else m0
  rel0.map (fun r => r / m)

/-- The selection key of the `mmr` loop: plain normalized relevance for the very
first pick (`if not selected`), the `mmr_score` combination afterwards, with the
diversity term `max(cos(dense[j], dense[i]) for i in selected)` abstracted as the
oracle `sim`. -/
def mmrScore (sim : ℕ → ℕ → ℚ) (lambdaMult : ℚ) (rel : List ℚ)
    (selected : List ℕ) (j : ℕ) : ℚ :=
  if selected.isEmpty then rel.getD j 0
  else
    lambdaMult * rel.getD j 0 -
      (1 - lambdaMult) * listMax (selected.map (fun i => sim j i))

/-- Embedding of `mmr` (app/rag_model.py, lines 180-222): identity short-circuit
when `len(cands) ≤ k`, otherwise the greedy MMR selection over normalized
relevances, materializing the selected indices back into candidates. -/
def mmr (sim : ℕ → ℕ → ℚ) (cands : List Cand) (k : ℕ) (lambdaMult : ℚ) :
    List Cand :=
  if cands.length ≤ k then cands
  else
    (mmrLoop k (mmrScore sim lambdaMult (mmrRel cands)) []
        (List.range cands.length)).map (fun i => cands.getD i default)

/-- C5: whenever the candidate list has length at most `k` (for any similarity
oracle and any lambda in the unit interval), `mmr` returns exactly its input:
same elements, same order, same ids. -/
theorem mmr_identity_when_short (sim : ℕ → ℕ → ℚ) (cands : List Cand) (k : ℕ)
    (lambdaMult : ℚ) (h0 : 0 ≤ lambdaMult) (h1 : lambdaMult ≤ 1)
    (h : cands.length ≤ k) : mmr sim cands k lambdaMult = cands := by
  unfold mmr
  rw [if_pos h]

/-- C5 witness: the identity statement evaluated on a concrete one-element pool
with k = 3 and lambda = 0. -/
theorem mmr_identity_witness :
    mmr (fun _ _ => 0) [⟨"a", 1, "t"⟩] 3 0 = [⟨"a", 1, "t"⟩] :=
  mmr_identity_when_short (fun _ _ => 0) [⟨"a", 1, "t"⟩] 3 0
    (le_refl 0) zero_le_one (by decide)

theorem mmrLoop_nil (k : ℕ) (score : List ℕ → ℕ → ℚ) (sel : List ℕ) :
    mmrLoop k score sel [] = sel := by
  rw [mmrLoop]

theorem mmrLoop_cons (k : ℕ) (score : List ℕ → ℕ → ℚ) (sel : List ℕ)
    (j : ℕ) (js : List ℕ) :
    mmrLoop k score sel (j :: js) =
      if k ≤ sel.length then sel
      else
        mmrLoop k score (sel ++ [pickMax (score sel) j js])
          ((j :: js).erase (pickMax (score sel) j js)) := by
  rw [mmrLoop]

/-- Invariant of the MMR selection loop: starting from disjoint, duplicate-free
`selected`/`remaining` index lists with `selected` not yet over budget, the loop
returns a duplicate-free index list of length `min k (selected + remaining)`
whose members all come from `selected` or `remaining`. -/
theorem mmrLoop_spec (k : ℕ) (score : List ℕ → ℕ → ℚ) :
    ∀ (n : ℕ) (rem sel : List ℕ), rem.length = n → sel.length ≤ k →
      sel.Nodup → rem.Nodup → (∀ x ∈ sel, x ∉ rem) →
      (mmrLoop k score sel rem).Nodup ∧
        (mmrLoop k score sel rem).length = min k (sel.length + rem.length) ∧
        (∀ x ∈ mmrLoop k score sel rem, x ∈ sel ∨ x ∈ rem) := by
  intro n
  induction n using Nat.strong_induction_on with
  | _ n ih =>
    intro rem sel hn hsk hselN hremN hdisj
    rcases rem with _ | ⟨j, js⟩
    · rw [mmrLoop_nil]
      refine ⟨hselN, ?_, fun x hx => Or.inl hx⟩
      simp only [List.length_nil, Nat.add_zero]
      exact (Nat.min_eq_right hsk).symm
    · rw [mmrLoop_cons]
      by_cases hk : k ≤ sel.length
      · rw [if_pos hk]
        have hke : sel.length = k := le_antisymm hsk hk
        refine ⟨hselN, ?_, fun x hx => Or.inl hx⟩
        rw [Nat.min_eq_left (by omega)]
        omega
      · rw [if_neg hk]
        set i := pickMax (score sel) j js with hidef
        have hmemi : i ∈ j :: js := by
          rcases pickMax_mem (score sel) j js with h | h
          · simp [hidef, h]
          · simp [hidef, h]
        have hlenerase : ((j :: js).erase i).length = js.length := by
          rw [List.length_erase_of_mem hmemi]
          simp
        have hiNotSel : i ∉ sel := fun hc => hdisj i hc hmemi
        have hselN' : (sel ++ [i]).Nodup := by
          simp [List.nodup_append, hselN, hiNotSel]
        have hdisj' : ∀ x ∈ sel ++ [i], x ∉ (j :: js).erase i := by
          intro x hx hc
          rcases List.mem_append.mp hx with hxs | hxi
          · exact hdisj x hxs (List.erase_subset _ _ hc)
          · have hxi' : x = i := by simpa using hxi
            subst hxi'
            exact (((List.Nodup.mem_erase_iff hremN).mp hc).1) rfl
        have hn' : js.length + 1 = n := by simpa using hn
        have hrec := ih js.length (by omega) ((j :: js).erase i) (sel ++ [i])
          hlenerase (by simp; omega) hselN' (List.Nodup.erase i hremN) hdisj'
        refine ⟨hrec.1, ?_, ?_⟩
        · have harith : (sel ++ [i]).length + ((j :: js).erase i).length =
              sel.length + (j :: js).length := by
            rw [List.length_append, hlenerase, List.length_singleton,
              List.length_cons]
            omega
          rw [hrec.2.1, harith]
        · intro x hx
          rcases hrec.2.2 x hx with hxs | hxr
          · rcases List.mem_append.mp hxs with h | h
            · exact Or.inl h
            · have : x = i := by simpa using h
              subst this
              exact Or.inr hmemi
          · exact Or.inr (List.erase_subset _ _ hxr)

/-- C6 counterexample: a two-candidate pool whose entries share the id "a", with
k = 2 and lambda = 3/4: `mmr` returns it unchanged, so the output DOES contain a
repeated id — the no-duplicates claim fails for inputs with duplicate ids. -/
theorem mmr_duplicate_id_output :
    ¬ ((mmr (fun _ _ => 0) [⟨"a", 1, "x"⟩, ⟨"a", 2, "y"⟩] 2 (3 / 4)).map
        Cand.id).Nodup := by
  decide

/-- C6 (amended): for every similarity oracle, every candidate list whose ids are
pairwise distinct, every k and every lambda in the unit interval, the output of
`mmr` contains no repeated id and has length `min k (number of candidates)`. -/
theorem mmr_nodup_and_length (sim : ℕ → ℕ → ℚ) (cands : List Cand) (k : ℕ)
    (lambdaMult : ℚ) (h0 : 0 ≤ lambdaMult) (h1 : lambdaMult ≤ 1)
    (hids : (cands.map Cand.id).Nodup) :
    ((mmr sim cands k lambdaMult).map Cand.id).Nodup ∧
      (mmr sim cands k lambdaMult).length = min k cands.length := by
  unfold mmr
  by_cases h : cands.length ≤ k
  · rw [if_pos h]
    exact ⟨hids, by omega⟩
  · rw [if_neg h]
    obtain ⟨hN, hlen, hmem⟩ := mmrLoop_spec k
      (mmrScore sim lambdaMult (mmrRel cands)) (List.range cands.length).length
      (List.range cands.length) [] rfl (by simp) List.nodup_nil
      (List.nodup_range _) (by simp)
    have hmemlt : ∀ x ∈ mmrLoop k (mmrScore sim lambdaMult (mmrRel cands)) []
        (List.range cands.length), x < cands.length := by
      intro x hx
      rcases hmem x hx with h' | h'
      · simp at h'
      · exact List.mem_range.mp h'
    constructor
    · rw [List.map_map]
      apply List.Nodup.map_on _ hN
      intro x hx y hy hxy
      have hxlt := hmemlt x hx
      have hylt := hmemlt y hy
      simp only [Function.comp] at hxy
      rw [List.getD_eq_getElem _ _ hxlt, List.getD_eq_getElem _ _ hylt] at hxy
      have hx2 : (cands.map Cand.id).get ⟨x, by simpa using hxlt⟩ =
          (cands.map Cand.id).get ⟨y, by simpa using hylt⟩ := by
        rw [List.get_eq_getElem, List.get_eq_getElem, List.getElem_map,
          List.getElem_map]
        exact hxy
      have hfin := (List.Nodup.get_inj_iff hids).mp hx2
      exact congrArg Fin.val hfin
    · rw [List.length_map, hlen]
      simp

/-- C6 witness: the amended statement on a concrete two-candidate pool with
distinct ids, k = 1 and lambda = 0. -/
theorem mmr_nodup_and_length_witness :
    ((mmr (fun _ _ => 0) [⟨"a", 1, "x"⟩, ⟨"b", 2, "y"⟩] 1 0).map
        Cand.id).Nodup ∧
      (mmr (fun _ _ => 0) [⟨"a", 1, "x"⟩, ⟨"b", 2, "y"⟩] 1 0).length =
        min 1 ([⟨"a", 1, "x"⟩, ⟨"b", 2, "y"⟩] : List Cand).length :=
  mmr_nodup_and_length (fun _ _ => 0) [⟨"a", 1, "x"⟩, ⟨"b", 2, "y"⟩] 1 0
    (le_refl 0) zero_le_one (by decide)

/-- Python whitespace class (the ASCII part of the `str`/`re` notion of space). -/
def pySpace (c : Char) : Bool :=
  c == ' ' || c == '\t' || c == '\n' || c == '\r' || c == '\x0b' || c == '\x0c'

/-- Python `s.strip()`: drop leading and trailing whitespace. -/
def pyStrip (s : String) : String :=
  String.mk (((s.data.dropWhile pySpace).reverse.dropWhile pySpace).reverse)

/-- Python `s[:n]` on strings (truncation to at most n characters). -/
def pyTake (s : String) (n : ℕ) : String :=
  String.mk (s.data.take n)

/-- Sentence-ending characters of the fallback splitter's lookbehind class. -/
def sentBoundary (c : Char) : Bool :=
  c == '.' || c == '?' || c == '!'

/-- One-pass rendering of the sentence splitter used by `extractive_answer`:
split the text at every maximal whitespace run that immediately follows one of
`.`, `?`, `!`, consuming the run.  `cur` is the current sentence (reversed);
the flag records that we are inside the whitespace run being consumed. -/
def sentSplitGo : List Char → List Char → Bool → List String
  | [], cur, _ => [String.mk cur.reverse]
  | c :: rest, cur, skipping =>
    if skipping && pySpace c then sentSplitGo rest cur true
    else if pySpace c && (match cur with | p :: _ => sentBoundary p | [] => false) then
      String.mk cur.reverse :: sentSplitGo rest [] true
    else sentSplitGo rest (c :: cur) false

/-- The sentence split of the lexical fallback in `extractive_answer`. -/
def sentSplit (s : String) : List String :=
  sentSplitGo s.data [] false

/-- The character class `[A-Za-z0-9]` of the query-term tokenizer. -/
def isAlnumAscii (c : Char) : Bool :=
  ('a' ≤ c && c ≤ 'z') || ('A' ≤ c && c ≤ 'Z') || ('0' ≤ c && c ≤ '9')

/-- One-pass rendering of the alphanumeric-run tokenizer used to extract query
terms in the fallback of `extractive_answer` (maximal `[A-Za-z0-9]+` runs). -/
def alnumRunsGo : List Char → List Char → List String
  | [], cur => if cur.isEmpty then [] else [String.mk cur.reverse]
  | c :: rest, cur =>
    if isAlnumAscii c then alnumRunsGo rest (c :: cur)
    else if cur.isEmpty then alnumRunsGo rest []
    else String.mk cur.reverse :: alnumRunsGo rest []

/-- The query-term list of the fallback: alphanumeric runs of the (lower-cased)
query that are longer than two characters. -/
def queryTerms (q : String) : List String :=
  (alnumRunsGo q.data []).filter (fun t => 2 < t.length)

/-- Python `s.splitlines()` (ASCII line boundaries, `\r\n` counted once); the
flag records that the previous character was a bare `\r`, whose following `\n`
must not open another line. -/
def pySplitlinesGo : List Char → List Char → Bool → List String
  | [], cur, _ => if cur.isEmpty then [] else [String.mk cur.reverse]
  | c :: rest, cur, lastCR =>
    if c == '\n' then
      if lastCR then pySplitlinesGo rest cur false
      else String.mk cur.reverse :: pySplitlinesGo rest [] false
    else if c == '\r' then String.mk cur.reverse :: pySplitlinesGo rest [] true
    else pySplitlinesGo rest (c :: cur) false

/-- Python `s.splitlines()`. -/
def pySplitlines (s : String) : List String :=
  pySplitlinesGo s.data [] false

/-- The score a sentence receives in the lexical fallback: the number of query
terms (with multiplicity) occurring in the lower-cased sentence. -/
def sentScore (qTerms : List String) (s : String) : ℕ :=
  (qTerms.filter (fun qt => strIn qt (pyLower s))).length

/-- The best/score accumulation loop of the lexical fallback of
`extractive_answer` (app/rag_model.py, lines 302-307): keep the stripped
highest-scoring sentence whose raw length is positive and at most `max_chars`. -/
def fallbackBest (qTerms : List String) (maxChars : ℕ) (sents : List String) :
    String × ℕ :=
  sents.foldl
    (fun bs s =>
      let sc := sentScore qTerms s
      if bs.2 < sc ∧ 0 < s.length ∧ s.length ≤ maxChars then (pyStrip s, sc)
      else bs)
    ("", 0)

/-- The regular-expression patterns consulted by `extractive_answer`: the seven
keys of `LEGAL_PATTERNS` that it uses, plus the inline `law_pat` of the
governing-law branch. -/
inductive PatKey
  | lawSent
  | governing_law
  | atTermination
  | payment
  | parties
  | confidential
  | governing_venue
  | liability_cap
deriving DecidableEq

/-- The `{"answer": ..., "citations": [...]}` result shape of the answerers. -/
structure Answer where
  answer : String
  citations : List String
deriving DecidableEq

/-- Embedding of the nested helper `pack_with_best_citation` (app/rag_model.py,
lines 239-247): strip the matched text; cite the first hit whose text contains
it verbatim (a falsy/empty match never attributes), else fall back to the first
five hit ids; quote the (truncated) matched text. -/
def pack_with_best_citation (hits : List Cand) (maxChars : ℕ) (txt : String) :
    Answer :=
  match (hits.find? (fun h => !(pyStrip txt == "") && strIn (pyStrip txt) h.text)).map
      Cand.id with
  | some c => ⟨"\"" ++ pyTake (pyStrip txt) maxChars ++ "\"", [c]⟩
  | none => ⟨"\"" ++ pyTake (pyStrip txt) maxChars ++ "\"", (hits.take 5).map Cand.id⟩

/-- First defined value in a list of options (the early-return structure of the
`extractive_answer` branch chain). -/
def firstSome {α : Type} : List (Option α) → Option α
  | [] => none
  | none :: os => firstSome os
  | some a :: _ => some a

/-- The governing-law branch of `extractive_answer` (app/rag_model.py, lines
250-261): scan each hit individually with the inline `law_pat`, returning the
first stripped match longer than 30 characters with that single hit's id;
otherwise try the joined text with the `governing_law` pattern. -/
def branchGovLaw (oracle : PatKey → String → Option String) (q joined : String)
    (hits : List Cand) (maxChars : ℕ) : Option (Except String Answer) :=
  if strIn "govern" q || strIn "law" q || strIn "jurisd" q then
    match hits.findSome? (fun h =>
        match oracle PatKey.lawSent h.text with
        | some m => if 30 < (pyStrip m).length then some (h.id, pyStrip m) else none
        | none => none) with
    | some p => some (Except.ok ⟨"\"" ++ p.2 ++ "\"", [p.1]⟩)
    | none =>
      (oracle PatKey.governing_law joined).map
        (fun m => Except.ok (pack_with_best_citation hits maxChars m))
  else none

/-- The termination branch of `extractive_answer` (app/rag_model.py, lines
264-267): `m.group(0).splitlines()[0]` raises IndexError when the match has no
lines (the empty string). -/
def branchTermClause (oracle : PatKey → String → Option String) (q joined : String)
    (hits : List Cand) (maxChars : ℕ) : Option (Except String Answer) :=
  if strIn "terminat" q || strIn "expire" q then
    (oracle PatKey.atTermination joined).map (fun m =>
      match pySplitlines m with
      | [] => Except.error "list index out of range"
      | l :: _ => Except.ok (pack_with_best_citation hits maxChars l))
  else none

/-- The common shape of the payment / parties / confidentiality / venue /
liability branches of `extractive_answer`: if the query trigger is present and
the pattern matches the joined evidence, pack the match. -/
def simpleBranch (trig : Bool) (found : Option String) (hits : List Cand)
    (maxChars : ℕ) : Option (Except String Answer) :=
  if trig then
    found.map (fun m => Except.ok (pack_with_best_citation hits maxChars m))
  else none

/-- Embedding of `extractive_answer` (app/rag_model.py, lines 230-311).  The
`re` engine is abstracted as `oracle`, mapping a pattern key and a subject
string to the matched span (`m.group(0)`), if any.  Empty hits yield the
NOT_FOUND sentinel; otherwise the seven keyword-triggered pattern branches run
in priority order, then the lexical best-sentence fallback, then the last
resort quoting the first line of the top hit's text (which raises — `.error` —
exactly when that text is empty, as `"".splitlines()` is `[]`). -/
def extractiveAnswer (oracle : PatKey → String → Option String) (query : String)
    (hits : List Cand) (maxChars : ℕ) : Except String Answer :=
  match hits with
  | [] => Except.ok ⟨"NOT_FOUND", []⟩
  | h0 :: _ =>
    let q := pyLower query
    let joined := String.intercalate " " (hits.map Cand.text)
    match firstSome
        [branchGovLaw oracle q joined hits maxChars,
         branchTermClause oracle q joined hits maxChars,
         simpleBranch (["payment", "fee", "charges", "settle", "compensation"].any
           (fun x => strIn x q)) (oracle PatKey.payment joined) hits maxChars,
         simpleBranch (strIn "parties" q || strIn "roles" q || strIn "between" q ||
           strIn "by and among" q) (oracle PatKey.parties joined) hits maxChars,
         simpleBranch (strIn "confidential" q) (oracle PatKey.confidential joined)
           hits maxChars,
         simpleBranch (strIn "venue" q || strIn "governing" q || strIn "law" q)
           (oracle PatKey.governing_venue joined) hits maxChars,
         simpleBranch (strIn "liability" q || strIn "cap" q || strIn "limit" q)
           (oracle PatKey.liability_cap joined) hits maxChars] with
    | some r => r
    | none =>
      let best := (fallbackBest (queryTerms q) maxChars (sentSplit joined)).1
      if best ≠ "" then Except.ok (pack_with_best_citation hits maxChars best)
      else
        match pySplitlines h0.text with
        | [] => Except.error "list index out of range"
        | l :: _ => Except.ok (pack_with_best_citation hits maxChars l)

theorem firstSome_mem {α : Type} :
    ∀ (l : List (Option α)) (a : α), firstSome l = some a → some a ∈ l := by
  intro l
  induction l with
  | nil => intro a h; cases h
  | cons o os ih =>
    intro a h
    cases o with
    | none =>
      rw [show firstSome (none :: os) = firstSome os from rfl] at h
      exact List.mem_cons_of_mem _ (ih a h)
    | some b =>
      rw [show firstSome (some b :: os) = some b from rfl] at h
      rw [← h]
      exact List.mem_cons_self _ _

theorem pack_citations (hits : List Cand) (maxChars : ℕ) (txt : String)
    (hids : (hits.map Cand.id).Nodup) :
    (pack_with_best_citation hits maxChars txt).citations.Nodup ∧
      (pack_with_best_citation hits maxChars txt).citations.Sublist
        (hits.map Cand.id) := by
  unfold pack_with_best_citation
  cases hfind : hits.find? (fun h => !(pyStrip txt == "") && strIn (pyStrip txt) h.text) with
  | none =>
    simp only [Option.map_none']
    constructor
    · exact List.Nodup.sublist ((List.take_sublist 5 hits).map _) hids
    · exact (List.take_sublist 5 hits).map _
  | some h =>
    simp only [Option.map_some']
    have hmem : h ∈ hits := List.mem_of_find?_eq_some hfind
    exact ⟨List.nodup_singleton _,
      List.singleton_sublist.mpr (List.mem_map_of_mem _ hmem)⟩

theorem pack_answer_ne_empty (hits : List Cand) (maxChars : ℕ) (txt : String) :
    (pack_with_best_citation hits maxChars txt).answer ≠ "" := by
  unfold pack_with_best_citation
  split <;>
    · intro hc
      have hlen := congrArg String.length hc
      simp [String.length_append] at hlen
      exact absurd hlen.2 (by decide)

theorem simpleBranch_ok {trig : Bool} {found : Option String} {hits : List Cand}
    {maxChars : ℕ} {ans : Answer} (hids : (hits.map Cand.id).Nodup)
    (h : simpleBranch trig found hits maxChars = some (Except.ok ans)) :
    ans.citations.Nodup ∧ ans.citations.Sublist (hits.map Cand.id) := by
  unfold simpleBranch at h
  split at h
  · cases found with
    | none => simp at h
    | some m =>
      simp only [Option.map_some', Option.some.injEq, Except.ok.injEq] at h
      rw [← h]
      exact pack_citations hits maxChars m hids
  · simp at h

theorem branchGovLaw_ok {oracle : PatKey → String → Option String}
    {q joined : String} {hits : List Cand} {maxChars : ℕ} {ans : Answer}
    (hids : (hits.map Cand.id).Nodup)
    (h : branchGovLaw oracle q joined hits maxChars = some (Except.ok ans)) :
    ans.citations.Nodup ∧ ans.citations.Sublist (hits.map Cand.id) := by
  unfold branchGovLaw at h
  split at h
  · split at h
    case h_1 p hfs =>
      obtain ⟨hh, hmemh, hfh⟩ := List.exists_of_findSome?_eq_some hfs
      have hid : p.1 = hh.id := by
        cases ho : oracle PatKey.lawSent hh.text with
        | none => rw [ho] at hfh; simp at hfh
        | some m =>
          rw [ho] at hfh
          simp only at hfh
          split at hfh
          · exact (congrArg Prod.fst (Option.some.inj hfh)).symm
          · simp at hfh
      simp only [Option.some.injEq, Except.ok.injEq] at h
      rw [← h]
      refine ⟨List.nodup_singleton _, List.singleton_sublist.mpr ?_⟩
      rw [hid]
      exact List.mem_map_of_mem _ hmemh
    case h_2 hfs =>
      cases ho : oracle PatKey.governing_law joined with
      | none => rw [ho] at h; simp at h
      | some m =>
        rw [ho] at h
        simp only [Option.map_some', Option.some.injEq, Except.ok.injEq] at h
        rw [← h]
        exact pack_citations hits maxChars m hids
  · simp at h

theorem branchTermClause_ok {oracle : PatKey → String → Option String}
    {q joined : String} {hits : List Cand} {maxChars : ℕ} {ans : Answer}
    (hids : (hits.map Cand.id).Nodup)
    (h : branchTermClause oracle q joined hits maxChars = some (Except.ok ans)) :
    ans.citations.Nodup ∧ ans.citations.Sublist (hits.map Cand.id) := by
  unfold branchTermClause at h
  split at h
  · cases ho : oracle PatKey.atTermination joined with
    | none => rw [ho] at h; simp at h
    | some m =>
      rw [ho] at h
      simp only [Option.map_some', Option.some.injEq] at h
      cases hsp : pySplitlines m with
      | nil => rw [hsp] at h; simp at h
      | cons l ls =>
        rw [hsp] at h
        simp only [Except.ok.injEq] at h
        rw [← h]
        exact pack_citations hits maxChars l hids
  · simp at h

/-- C4 counterexample: a non-empty hits list whose two entries share the id "a";
the lexical fallback of `extractive_answer` selects a sentence spanning both hit
texts, no single hit contains it, and the top-five fallback citations come out
as ["a", "a"] — a duplicate, so the duplicates-removed claim fails for hit lists
with repeated ids. -/
theorem extractive_answer_duplicate_citations :
    extractiveAnswer (fun _ _ => none) "alpha gamma"
        [⟨"a", 1, "alpha beta"⟩, ⟨"a", 1, "gamma delta"⟩] 700 =
      Except.ok ⟨"\"alpha beta gamma delta\"", ["a", "a"]⟩ ∧
    ¬ (Answer.mk "\"alpha beta gamma delta\"" ["a", "a"]).citations.Nodup :=
  ⟨by rfl, by decide⟩

/-- C4 (amended): for every pattern-matcher behaviour, query, `max_chars` and
non-empty hits list whose ids are pairwise distinct, whenever
`extractive_answer` returns normally its citations list contains no duplicate
segment ids and is (in hit order) a sublist of the hit ids — the first
supporting hit first. -/
theorem extractive_answer_citations (oracle : PatKey → String → Option String)
    (query : String) (hits : List Cand) (maxChars : ℕ) (ans : Answer)
    (hne : hits ≠ []) (hids : (hits.map Cand.id).Nodup)
    (hok : extractiveAnswer oracle query hits maxChars = Except.ok ans) :
    ans.citations.Nodup ∧ ans.citations.Sublist (hits.map Cand.id) := by
  cases hits with
  | nil => exact absurd rfl hne
  | cons h0 hs =>
    simp only [extractiveAnswer] at hok
    split at hok
    case h_1 r hfs =>
      subst hok
      have hmem := firstSome_mem _ _ hfs
      simp only [List.mem_cons, List.not_mem_nil, or_false] at hmem
      rcases hmem with h | h | h | h | h | h | h
      · exact branchGovLaw_ok hids h.symm
      · exact branchTermClause_ok hids h.symm
      · exact simpleBranch_ok hids h.symm
      · exact simpleBranch_ok hids h.symm
      · exact simpleBranch_ok hids h.symm
      · exact simpleBranch_ok hids h.symm
      · exact simpleBranch_ok hids h.symm
    case h_2 hfs =>
      split at hok
      · simp only [Except.ok.injEq] at hok
        rw [← hok]
        exact pack_citations _ _ _ hids
      · split at hok
        · simp at hok
        · simp only [Except.ok.injEq] at hok
          rw [← hok]
          exact pack_citations _ _ _ hids

/-- C4 witness: the amended statement on a concrete singleton hit list, where
the fallback sentence is contained in the hit and is cited alone. -/
theorem extractive_answer_citations_witness :
    (Answer.mk "\"alpha beta\"" ["a"]).citations.Nodup ∧
      (Answer.mk "\"alpha beta\"" ["a"]).citations.Sublist
        (([⟨"a", 1, "alpha beta"⟩] : List Cand).map Cand.id) :=
  extractive_answer_citations (fun _ _ => none) "alpha" [⟨"a", 1, "alpha beta"⟩]
    700 ⟨"\"alpha beta\"", ["a"]⟩ (by decide) (by decide) (by rfl)

/-- True iff the lower-cased query contains at least one of the keyword triggers
guarding the seven pattern branches of `extractive_answer`. -/
def answerTriggered (query : String) : Bool :=
  let q := pyLower query
  (strIn "govern" q || strIn "law" q || strIn "jurisd" q) ||
  (strIn "terminat" q || strIn "expire" q) ||
  (["payment", "fee", "charges", "settle", "compensation"].any
    (fun x => strIn x q)) ||
  (strIn "parties" q || strIn "roles" q || strIn "between" q ||
    strIn "by and among" q) ||
  (strIn "confidential" q) ||
  (strIn "venue" q || strIn "governing" q || strIn "law" q) ||
  (strIn "liability" q || strIn "cap" q || strIn "limit" q)

theorem string_data_ne_nil (s : String) (h : s ≠ "") : s.data ≠ [] := by
  intro hc
  apply h
  cases s with
  | mk d =>
    have hc' : d = [] := hc
    subst hc'
    rfl

theorem fallbackBest_zero (qTerms : List String) (maxChars : ℕ) :
    ∀ sents : List String, (∀ s ∈ sents, sentScore qTerms s = 0) →
      fallbackBest qTerms maxChars sents = ("", 0) := by
  intro sents
  induction sents with
  | nil => intro _; rfl
  | cons s rest ih =>
    intro h
    have hs : sentScore qTerms s = 0 := h s (by simp)
    unfold fallbackBest
    rw [List.foldl_cons]
    have hinit : (let sc := sentScore qTerms s;
        if (("", 0) : String × ℕ).2 < sc ∧ 0 < s.length ∧ s.length ≤ maxChars
        then (pyStrip s, sc) else (("", 0) : String × ℕ)) = ("", 0) := by
      simp [hs]
    rw [hinit]
    have := ih (fun x hx => h x (List.mem_cons_of_mem _ hx))
    unfold fallbackBest at this
    exact this

theorem pySplitlinesGo_ne_nil :
    ∀ (l cur : List Char), l ≠ [] ∨ cur ≠ [] →
      pySplitlinesGo l cur false ≠ [] := by
  intro l
  induction l with
  | nil =>
    intro cur h
    rcases h with h | h
    · exact absurd rfl h
    · simp only [pySplitlinesGo]
      rw [if_neg (by simpa using h)]
      simp
  | cons c rest ih =>
    intro cur _
    simp only [pySplitlinesGo]
    by_cases h1 : c == '\n'
    · simp [h1]
    · by_cases h2 : c == '\r'
      · simp [h1, h2]
      · simp only [h1, h2, Bool.false_eq_true, if_false]
        exact ih (c :: cur) (Or.inr (by simp))

/-- C8 counterexample: a query with no keyword triggers and a single hit whose
text is empty: no sentence matches any query term, the last resort evaluates
`hits[0][2].splitlines()[0]` on the empty text, `"".splitlines()` is `[]`, and
the subscript raises IndexError — `extractive_answer` does not return a string
for this input. -/
theorem extractive_answer_raises_on_empty_text :
    extractiveAnswer (fun _ _ => none) "zzzz" [⟨"a", 1, ""⟩] 700 =
      Except.error "list index out of range" := by
  rfl

/-- C8 (amended): for every pattern-matcher behaviour, every query with no
keyword trigger, and every non-empty hits list whose sentences match no query
term, provided the top hit's text is non-empty, `extractive_answer` returns
normally with a non-empty answer string via the last-resort fallback (first
line of the top hit's text). -/
theorem extractive_answer_last_resort (oracle : PatKey → String → Option String)
    (query : String) (h0 : Cand) (hs : List Cand) (maxChars : ℕ)
    (htrig : answerTriggered query = false)
    (hscore : ∀ s ∈ sentSplit (String.intercalate " " ((h0 :: hs).map Cand.text)),
      sentScore (queryTerms (pyLower query)) s = 0)
    (htext : h0.text ≠ "") :
    ∃ ans, extractiveAnswer oracle query (h0 :: hs) maxChars = Except.ok ans ∧
      ans.answer ≠ "" := by
  unfold answerTriggered at htrig
  simp only [Bool.or_eq_false_iff, List.any_eq_false] at htrig
  obtain ⟨⟨⟨⟨⟨⟨⟨⟨hg, hl⟩, hj⟩, ⟨ht, he⟩⟩, hpay⟩, ⟨⟨⟨hpar, hrol⟩, hbet⟩, hby⟩⟩,
    hconf⟩, ⟨⟨hven, hgving⟩, hl2⟩⟩, ⟨⟨hliab, hcap⟩, hlim⟩⟩ := htrig
  have hb1 : branchGovLaw oracle (pyLower query)
      (String.intercalate " " ((h0 :: hs).map Cand.text)) (h0 :: hs) maxChars =
      none := by
    unfold branchGovLaw
    rw [if_neg (by simp [hg, hl, hj])]
  have hb2 : branchTermClause oracle (pyLower query)
      (String.intercalate " " ((h0 :: hs).map Cand.text)) (h0 :: hs) maxChars =
      none := by
    unfold branchTermClause
    rw [if_neg (by simp [ht, he])]
  have htrig3 : (["payment", "fee", "charges", "settle", "compensation"].any
      (fun x => strIn x (pyLower query))) = false := by
    simp only [List.any_eq_false]
    exact hpay
  simp only [extractiveAnswer, hb1, hb2, htrig3, hpar, hrol, hbet, hby, hconf,
    hven, hgving, hl2, hliab, hcap, hlim]
  have hsimple : ∀ found, simpleBranch false found (h0 :: hs) maxChars = none :=
    fun _ => rfl
  simp only [Bool.or_self, Bool.or_false, hsimple]
  have hfb := fallbackBest_zero (queryTerms (pyLower query)) maxChars
    (sentSplit (String.intercalate " " ((h0 :: hs).map Cand.text))) hscore
  simp only [firstSome, hfb]
  have hdata : h0.text.data ≠ [] := string_data_ne_nil h0.text htext
  cases hsp : pySplitlines h0.text with
  | nil =>
    exact absurd hsp (pySplitlinesGo_ne_nil h0.text.data [] (Or.inl hdata))
  | cons l ls =>
    unfold pySplitlines at hsp
    simp only [hsp]
    exact ⟨_, rfl, pack_answer_ne_empty _ _ _⟩

/-- C8 witness: the amended statement on a trigger-free query and a single hit
whose text has no sentence matching the query term. -/
theorem extractive_answer_last_resort_witness :
    ∃ ans, extractiveAnswer (fun _ _ => none) "zzzz"
        [⟨"a", 1, "hello world"⟩] 700 = Except.ok ans ∧ ans.answer ≠ "" :=
  extractive_answer_last_resort (fun _ _ => none) "zzzz" ⟨"a", 1, "hello world"⟩
    [] 700 (by decide) (by decide) (by decide)

/-- A ranked hit as consumed by `compute_ranking_metrics` (only its `"id"` field
is read by the metric computation). -/
structure RankedHit where
  id : String
  score : ℚ
deriving DecidableEq

/-- The five ranking metrics returned by `compute_ranking_metrics`; nDCG lives in
`ℝ` because of the base-2 logarithm, the others are exact rationals. -/
structure RankMetrics where
  hitK : ℚ
  recallK : ℚ
  mrrK : ℚ
  ndcgK : ℝ
  mapK : ℚ

/-- The evaluated cut-off `K = min(k_eval or len(hits), len(hits))`; Python's
falsy `or` sends both `None` and `0` to `len(hits)`. -/
def kEvalOf (k_eval : Option ℕ) (hits : List RankedHit) : ℕ :=
  match k_eval with
  | none => hits.length
  | some 0 => hits.length
  | some k => min k hits.length

/-- The binary relevance flags of the top-K hits. -/
def relFlags (hits : List RankedHit) (gold : List String) (k_eval : Option ℕ) :
    List ℕ :=
  (hits.take (kEvalOf k_eval hits)).map
    (fun h => if h.id ∈ gold.dedup then 1 else 0)

/-- The DCG sum `sum(r / log2(i+1) for i, r in enumerate(rs, start=1))`,
carrying the 1-based rank `i`. -/
noncomputable def dcgGo (i : ℕ) : List ℕ → ℝ
  | [] => 0
  | r :: rs => (r : ℝ) / Real.logb 2 (i + 1) + dcgGo (i + 1) rs

/-- The average-precision accumulation of `compute_ranking_metrics`: at each
relevant rank `i`, add `rel_seen / i` after incrementing `rel_seen`. -/
def apGo (i relSeen : ℕ) : List ℕ → ℚ
  | [] => 0
  | r :: rs =>
    if r = 1 then ((relSeen + 1 : ℕ) : ℚ) / i + apGo (i + 1) (relSeen + 1) rs
    else apGo (i + 1) relSeen rs

/-- Embedding of `compute_ranking_metrics` (app/metrics_rag.py, lines 56-110):
all-zero metrics on empty hits; otherwise binary relevance flags over the top-K
hits against the deduplicated gold set, with hit@k, recall@k (denominator
`max(1, #gold)`), mrr@k, nDCG@k (ideal ranking by descending sort, denominator
1.0 when no flag is set), and map@k. -/
noncomputable def computeRankingMetrics (hits : List RankedHit)
    (gold : List String) (k_eval : Option ℕ) : RankMetrics :=
  if hits.isEmpty then ⟨0, 0, 0, 0, 0⟩
  else
    let rel_flags := relFlags hits gold k_eval
    let total_rel : ℕ := max 1 gold.dedup.length
    let hit_at_k : ℚ := if rel_flags.any (fun r => r != 0) then 1 else 0
    let recall_at_k : ℚ := (rel_flags.sum : ℚ) / total_rel
    let mrr : ℚ :=
      match rel_flags.findIdx? (fun r => r == 1) with
      | some i => 1 / ((i : ℚ) + 1)
      | none => 0
    let ideal := List.insertionSort (fun a b => a ≥ b) rel_flags
    let idcg : ℝ := if ideal.any (fun r => r != 0) then dcgGo 1 ideal else 1
    let ndcg : ℝ := dcgGo 1 rel_flags / idcg
    let ap : ℚ :=
      if 0 < total_rel then apGo 1 0 rel_flags / total_rel else 0
    ⟨hit_at_k, recall_at_k, mrr, ndcg, ap⟩

theorem dcgGo_all_zero :
    ∀ (l : List ℕ) (i : ℕ), (∀ r ∈ l, r = 0) → dcgGo i l = 0 := by
  intro l
  induction l with
  | nil => intro i _; rfl
  | cons r rs ih =>
    intro i h
    have hr : r = 0 := h r (by simp)
    rw [dcgGo, hr, ih (i + 1) (fun x hx => h x (List.mem_cons_of_mem _ hx))]
    simp

/-- C1 counterexample: one hit with id "a", gold ids ["b"], k = 1 — no gold hit
in range, and `compute_ranking_metrics` returns ndcg@k = 0, not 1: the 1.0 is
only the denominator guard, the numerator DCG is 0. -/
theorem ndcg_no_gold_not_one :
    (computeRankingMetrics [⟨"a", 1⟩] ["b"] (some 1)).ndcgK = 0 ∧
      (0 : ℝ) ≠ 1 := by
  constructor
  · have hflags : relFlags [⟨"a", 1⟩] ["b"] (some 1) = [0] := by decide
    simp only [computeRankingMetrics, hflags]
    rw [if_neg (by decide)]
    have h0 : dcgGo 1 [0] = 0 := dcgGo_all_zero [0] 1 (by simp)
    rw [h0]
    simp
  · norm_num

/-- C1 (amended): for every non-empty hits list, gold-id list and k, when no hit
in the evaluated top-K range has an id in the gold set, `compute_ranking_metrics`
returns ndcg@k = 0 (the `idcg = 1.0` convention only avoids division by zero;
the resulting score is 0, not 1). -/
theorem ndcg_zero_when_no_gold_in_range (hits : List RankedHit)
    (gold : List String) (k_eval : Option ℕ) (hne : hits ≠ [])
    (h : ∀ hit ∈ hits.take (kEvalOf k_eval hits), hit.id ∉ gold) :
    (computeRankingMetrics hits gold k_eval).ndcgK = 0 := by
  have hflags : ∀ r ∈ relFlags hits gold k_eval, r = 0 := by
    intro r hr
    unfold relFlags at hr
    obtain ⟨hit, hmem, hval⟩ := List.mem_map.mp hr
    rw [← hval, if_neg (fun hc => h hit hmem (List.mem_dedup.mp hc))]
  unfold computeRankingMetrics
  rw [if_neg (by simpa using hne)]
  simp only
  rw [dcgGo_all_zero _ 1 hflags]
  simp

/-- C1 witness: the amended statement evaluated at one hit "a", gold ["b"],
k = 1. -/
theorem ndcg_zero_when_no_gold_witness :
    (computeRankingMetrics [⟨"a", 1⟩] ["b"] (some 1)).ndcgK = 0 :=
  ndcg_zero_when_no_gold_in_range [⟨"a", 1⟩] ["b"] (some 1) (by decide)
    (by decide)

theorem nodup_subset_length_le {l l2 : List String} (hn : l.Nodup)
    (hsub : ∀ x ∈ l, x ∈ l2) : l.length ≤ l2.length := by
  calc l.length = l.toFinset.card := (List.toFinset_card_of_nodup hn).symm
    _ ≤ l2.toFinset.card := Finset.card_le_card
        (fun x hx => List.mem_toFinset.mpr (hsub x (List.mem_toFinset.mp hx)))
    _ ≤ l2.length := List.toFinset_card_le l2

theorem sum_indicator_eq_filter_length (g : List String) :
    ∀ l : List RankedHit,
      (l.map (fun h => if h.id ∈ g.dedup then (1 : ℕ) else 0)).sum =
        (l.filter (fun h => decide (h.id ∈ g.dedup))).length := by
  intro l
  induction l with
  | nil => rfl
  | cons h0 rest ih =>
    rw [List.map_cons, List.sum_cons, List.filter_cons, ih]
    by_cases hmem : h0.id ∈ g.dedup
    · rw [if_pos hmem, if_pos (by simpa using hmem)]
      simp [Nat.add_comm]
    · rw [if_neg hmem, if_neg (by simpa using hmem)]
      simp

theorem sum_indicator_le_dedup (g : List String) (l : List RankedHit)
    (hids : (l.map RankedHit.id).Nodup) :
    (l.map (fun h => if h.id ∈ g.dedup then (1 : ℕ) else 0)).sum ≤
      g.dedup.length := by
  rw [sum_indicator_eq_filter_length]
  have hsubl : List.Sublist
      ((l.filter (fun h => decide (h.id ∈ g.dedup))).map RankedHit.id)
      (l.map RankedHit.id) := (List.filter_sublist l).map _
  have hnodup : ((l.filter (fun h => decide (h.id ∈ g.dedup))).map
      RankedHit.id).Nodup := List.Nodup.sublist hsubl hids
  have hlen : (l.filter (fun h => decide (h.id ∈ g.dedup))).length =
      ((l.filter (fun h => decide (h.id ∈ g.dedup))).map RankedHit.id).length :=
    (List.length_map _ _).symm
  rw [hlen]
  refine nodup_subset_length_le hnodup ?_
  intro x hx
  obtain ⟨h0, hmem, hval⟩ := List.mem_map.mp hx
  have := (List.mem_filter.mp hmem).2
  rw [← hval]
  exact of_decide_eq_true this

theorem relFlags_binary (hits : List RankedHit) (gold : List String)
    (k_eval : Option ℕ) : ∀ r ∈ relFlags hits gold k_eval, r = 0 ∨ r = 1 := by
  intro r hr
  obtain ⟨h0, _, hval⟩ := List.mem_map.mp hr
  rw [← hval]
  split <;> simp

theorem apGo_nonneg : ∀ (l : List ℕ) (i s : ℕ), 1 ≤ i → 0 ≤ apGo i s l := by
  intro l
  induction l with
  | nil => intro i s _; exact le_refl 0
  | cons r rs ih =>
    intro i s hi
    rw [apGo]
    split
    · have h1 : (0 : ℚ) ≤ ((s + 1 : ℕ) : ℚ) / i := by positivity
      have h2 := ih (i + 1) (s + 1) (by omega)
      linarith
    · exact ih (i + 1) s (by omega)

theorem apGo_le_sum : ∀ (l : List ℕ) (i s : ℕ), s + 1 ≤ i →
    apGo i s l ≤ ((l.sum : ℕ) : ℚ) := by
  intro l
  induction l with
  | nil => intro i s _; simp [apGo]
  | cons r rs ih =>
    intro i s hsi
    rw [apGo]
    split
    case isTrue hr =>
      subst hr
      rw [List.sum_cons]
      have hterm : ((s + 1 : ℕ) : ℚ) / i ≤ 1 := by
        rw [div_le_one (by exact_mod_cast Nat.lt_of_lt_of_le (Nat.succ_pos s) hsi)]
        exact_mod_cast hsi
      have hih := ih (i + 1) (s + 1) (by omega)
      have hcast : ((1 + rs.sum : ℕ) : ℚ) = 1 + ((rs.sum : ℕ) : ℚ) := by
        push_cast
        ring
      rw [hcast]
      linarith
    case isFalse hr =>
      rw [List.sum_cons]
      have hih := ih (i + 1) s (by omega)
      have hcast : ((rs.sum : ℕ) : ℚ) ≤ ((r + rs.sum : ℕ) : ℚ) := by
        exact_mod_cast Nat.le_add_left _ _
      linarith

theorem logbTwo_pos (i : ℕ) (hi : 1 ≤ i) : 0 < Real.logb 2 (i + 1) := by
  apply Real.logb_pos (by norm_num)
  have : (1 : ℝ) ≤ (i : ℝ) := by exact_mod_cast hi
  push_cast
  linarith

/-- The ideal DCG of `m` consecutive unit gains starting at 1-based rank `i`. -/
noncomputable def onesGo : ℕ → ℕ → ℝ
  | _, 0 => 0
  | i, m + 1 => 1 / Real.logb 2 (i + 1) + onesGo (i + 1) m

theorem onesGo_nonneg : ∀ (m i : ℕ), 1 ≤ i → 0 ≤ onesGo i m := by
  intro m
  induction m with
  | zero => intro i _; exact le_refl 0
  | succ m ih =>
    intro i hi
    rw [onesGo]
    have h1 : (0 : ℝ) ≤ 1 / Real.logb 2 (i + 1) :=
      le_of_lt (div_pos one_pos (logbTwo_pos i hi))
    exact add_nonneg h1 (ih (i + 1) (by omega))

theorem logbTwo_antitone (i : ℕ) (hi : 1 ≤ i) :
    1 / Real.logb 2 ((i + 1 : ℕ) + 1) ≤ 1 / Real.logb 2 (i + 1) := by
  apply one_div_le_one_div_of_le (logbTwo_pos i hi)
  apply Real.logb_le_logb_of_le (by norm_num)
  · have : (1 : ℝ) ≤ (i : ℝ) := by exact_mod_cast hi
    push_cast
    linarith
  · push_cast
    linarith

theorem onesGo_succ_le : ∀ (m i : ℕ), 1 ≤ i → onesGo (i + 1) m ≤ onesGo i m := by
  intro m
  induction m with
  | zero => intro i _; exact le_refl 0
  | succ m ih =>
    intro i hi
    rw [onesGo, onesGo]
    exact add_le_add (logbTwo_antitone i hi) (ih (i + 1) (by omega))

theorem dcgGo_nonneg : ∀ (l : List ℕ) (i : ℕ), 1 ≤ i → 0 ≤ dcgGo i l := by
  intro l
  induction l with
  | nil => intro i _; exact le_refl 0
  | cons r rs ih =>
    intro i hi
    rw [dcgGo]
    exact add_nonneg
      (div_nonneg (Nat.cast_nonneg r) (le_of_lt (logbTwo_pos i hi)))
      (ih (i + 1) (by omega))

theorem dcgGo_le_onesGo :
    ∀ (l : List ℕ) (i : ℕ), 1 ≤ i → (∀ r ∈ l, r = 0 ∨ r = 1) →
      dcgGo i l ≤ onesGo i (l.countP (fun r => r == 1)) := by
  intro l
  induction l with
  | nil => intro i _ _; simp [dcgGo, List.countP_nil, onesGo]
  | cons r rs ih =>
    intro i hi hbin
    have hbin' : ∀ x ∈ rs, x = 0 ∨ x = 1 :=
      fun x hx => hbin x (List.mem_cons_of_mem _ hx)
    rw [dcgGo, List.countP_cons]
    rcases hbin r (List.mem_cons_self _ _) with h0 | h1
    · subst h0
      rw [show (if ((0 : ℕ) == 1) = true then 1 else 0) = 0 from rfl,
        Nat.add_zero]
      simp only [Nat.cast_zero, zero_div, zero_add]
      calc dcgGo (i + 1) rs ≤ onesGo (i + 1) (rs.countP (fun r => r == 1)) :=
            ih (i + 1) (by omega) hbin'
        _ ≤ onesGo i (rs.countP (fun r => r == 1)) := onesGo_succ_le _ i hi
    · subst h1
      rw [show (if ((1 : ℕ) == 1) = true then 1 else 0) = 1 from rfl, onesGo]
      simp only [Nat.cast_one]
      exact add_le_add (le_refl _) (ih (i + 1) (by omega) hbin')

theorem dcgGo_sorted_eq :
    ∀ (l : List ℕ) (i : ℕ), 1 ≤ i → (∀ r ∈ l, r = 0 ∨ r = 1) →
      l.Sorted (fun a b => a ≥ b) →
      dcgGo i l = onesGo i (l.countP (fun r => r == 1)) := by
  intro l
  induction l with
  | nil => intro i _ _ _; simp [dcgGo, List.countP_nil, onesGo]
  | cons r rs ih =>
    intro i hi hbin hsort
    obtain ⟨hall, hsort'⟩ := List.sorted_cons.mp hsort
    have hbin' : ∀ x ∈ rs, x = 0 ∨ x = 1 :=
      fun x hx => hbin x (List.mem_cons_of_mem _ hx)
    rw [dcgGo, List.countP_cons]
    rcases hbin r (List.mem_cons_self _ _) with h0 | h1
    · subst h0
      have hzero : ∀ x ∈ rs, x = 0 := by
        intro x hx
        have := hall x hx
        omega
      rw [show (if ((0 : ℕ) == 1) = true then 1 else 0) = 0 from rfl,
        Nat.add_zero]
      simp only [Nat.cast_zero, zero_div, zero_add]
      rw [dcgGo_all_zero rs (i + 1) hzero,
        List.countP_eq_zero.mpr (by intro a ha; simp [hzero a ha])]
      rfl
    · subst h1
      rw [show (if ((1 : ℕ) == 1) = true then 1 else 0) = 1 from rfl, onesGo,
        ih (i + 1) (by omega) hbin' hsort']
      simp only [Nat.cast_one]

theorem onesGo_pos : ∀ (m i : ℕ), 1 ≤ i → 1 ≤ m → 0 < onesGo i m := by
  intro m i hi hm
  cases m with
  | zero => omega
  | succ m =>
    rw [onesGo]
    exact add_pos_of_pos_of_nonneg (div_pos one_pos (logbTwo_pos i hi))
      (onesGo_nonneg m (i + 1) (by omega))

/-- C10: for every hits list with pairwise-distinct ids, every gold-id list and
every k, all five metrics returned by `compute_ranking_metrics` lie in [0, 1]. -/
theorem ranking_metrics_bounded (hits : List RankedHit) (gold : List String)
    (k_eval : Option ℕ) (hids : (hits.map RankedHit.id).Nodup) :
    (0 ≤ (computeRankingMetrics hits gold k_eval).hitK ∧
      (computeRankingMetrics hits gold k_eval).hitK ≤ 1) ∧
    (0 ≤ (computeRankingMetrics hits gold k_eval).recallK ∧
      (computeRankingMetrics hits gold k_eval).recallK ≤ 1) ∧
    (0 ≤ (computeRankingMetrics hits gold k_eval).mrrK ∧
      (computeRankingMetrics hits gold k_eval).mrrK ≤ 1) ∧
    (0 ≤ (computeRankingMetrics hits gold k_eval).ndcgK ∧
      (computeRankingMetrics hits gold k_eval).ndcgK ≤ 1) ∧
    (0 ≤ (computeRankingMetrics hits gold k_eval).mapK ∧
      (computeRankingMetrics hits gold k_eval).mapK ≤ 1) := by
  unfold computeRankingMetrics
  by_cases hempty : hits.isEmpty
  · rw [if_pos hempty]
    norm_num
  rw [if_neg hempty]
  simp only
  have hbin := relFlags_binary hits gold k_eval
  have hflagsids : ((hits.take (kEvalOf k_eval hits)).map RankedHit.id).Nodup :=
    List.Nodup.sublist ((List.take_sublist _ hits).map _) hids
  have hsum_le : (relFlags hits gold k_eval).sum ≤ gold.dedup.length :=
    sum_indicator_le_dedup gold (hits.take (kEvalOf k_eval hits)) hflagsids
  have htotal_pos : (0 : ℚ) < (max 1 gold.dedup.length : ℕ) := by
    have : 1 ≤ max 1 gold.dedup.length := le_max_left _ _
    exact_mod_cast Nat.lt_of_lt_of_le Nat.zero_lt_one this
  have hsum_le_total : ((relFlags hits gold k_eval).sum : ℚ) ≤
      ((max 1 gold.dedup.length : ℕ) : ℚ) := by
    have h1 : (relFlags hits gold k_eval).sum ≤ max 1 gold.dedup.length :=
      le_trans hsum_le (le_max_right _ _)
    exact_mod_cast h1
  refine ⟨?_, ?_, ?_, ?_, ?_⟩
  · constructor <;> split <;> norm_num
  · constructor
    · positivity
    · rw [div_le_one htotal_pos]
      exact hsum_le_total
  · constructor
    · split
      · positivity
      · exact le_refl 0
    · split
      next i hfind =>
        rw [div_le_one (by positivity)]
        have : (1 : ℚ) ≤ (i : ℚ) + 1 := by
          have : (0 : ℚ) ≤ (i : ℚ) := Nat.cast_nonneg i
          linarith
        exact this
      next => exact zero_le_one
  · -- nDCG bounds
    have hperm : List.Perm
        (List.insertionSort (fun a b => a ≥ b) (relFlags hits gold k_eval))
        (relFlags hits gold k_eval) :=
      List.perm_insertionSort _ _
    have hbin_ideal : ∀ r ∈ List.insertionSort (fun a b => a ≥ b)
        (relFlags hits gold k_eval), r = 0 ∨ r = 1 :=
      fun r hr => hbin r (hperm.mem_iff.mp hr)
    haveI hTot : IsTotal ℕ (fun a b => a ≥ b) := ⟨fun a b => le_total b a⟩
    haveI hTrans : IsTrans ℕ (fun a b => a ≥ b) :=
      ⟨fun _ _ _ hab hbc => le_trans hbc hab⟩
    have hsorted : (List.insertionSort (fun a b => a ≥ b)
        (relFlags hits gold k_eval)).Sorted (fun a b => a ≥ b) :=
      List.sorted_insertionSort _ _
    have hcount : (List.insertionSort (fun a b => a ≥ b)
        (relFlags hits gold k_eval)).countP (fun r => r == 1) =
        (relFlags hits gold k_eval).countP (fun r => r == 1) :=
      hperm.countP_eq _
    by_cases hany : (List.insertionSort (fun a b => a ≥ b)
        (relFlags hits gold k_eval)).any (fun r => r != 0)
    · rw [if_pos hany]
      have hex : ∃ r ∈ List.insertionSort (fun a b => a ≥ b)
          (relFlags hits gold k_eval), r ≠ 0 := by
        obtain ⟨r, hr, hrne⟩ := List.any_eq_true.mp hany
        exact ⟨r, hr, by simpa using hrne⟩
      obtain ⟨r, hrmem, hrne⟩ := hex
      have hr1 : r = 1 := by rcases hbin_ideal r hrmem with h | h <;> omega
      have hcount_pos : 0 < (List.insertionSort (fun a b => a ≥ b)
          (relFlags hits gold k_eval)).countP (fun r => r == 1) :=
        List.countP_pos_iff.mpr ⟨r, hrmem, by simp [hr1]⟩
      have hidcg_eq : dcgGo 1 (List.insertionSort (fun a b => a ≥ b)
          (relFlags hits gold k_eval)) =
          onesGo 1 ((List.insertionSort (fun a b => a ≥ b)
            (relFlags hits gold k_eval)).countP (fun r => r == 1)) :=
        dcgGo_sorted_eq _ 1 (le_refl 1) hbin_ideal hsorted
      have hidcg_pos : 0 < dcgGo 1 (List.insertionSort (fun a b => a ≥ b)
          (relFlags hits gold k_eval)) := by
        rw [hidcg_eq]
        exact onesGo_pos _ 1 (le_refl 1) hcount_pos
      have hle : dcgGo 1 (relFlags hits gold k_eval) ≤
          dcgGo 1 (List.insertionSort (fun a b => a ≥ b)
            (relFlags hits gold k_eval)) := by
        rw [hidcg_eq, hcount]
        exact dcgGo_le_onesGo _ 1 (le_refl 1) hbin
      constructor
      · exact div_nonneg (dcgGo_nonneg _ 1 (le_refl 1)) (le_of_lt hidcg_pos)
      · rw [div_le_one hidcg_pos]
        exact hle
    · rw [if_neg hany]
      have hanyf : (List.insertionSort (fun a b => a ≥ b)
          (relFlags hits gold k_eval)).any (fun r => r != 0) = false := by
        simpa using hany
      have hall0 := List.any_eq_false.mp hanyf
      have hzero : ∀ r ∈ relFlags hits gold k_eval, r = 0 := by
        intro r hr
        have hthis := hall0 r (hperm.mem_iff.mpr hr)
        simpa using hthis
      rw [dcgGo_all_zero _ 1 hzero]
      norm_num
  · constructor
    · split
      · exact div_nonneg (apGo_nonneg _ 1 0 (le_refl 1)) (le_of_lt htotal_pos)
      · exact le_refl 0
    · split
      · rw [div_le_one htotal_pos]
        calc apGo 1 0 (relFlags hits gold k_eval) ≤
            (((relFlags hits gold k_eval).sum : ℕ) : ℚ) :=
              apGo_le_sum _ 1 0 (le_refl 1)
          _ ≤ ((max 1 gold.dedup.length : ℕ) : ℚ) := hsum_le_total
      · exact zero_le_one

/-- C10 witness: the bounds evaluated at a concrete singleton hit list with the
hit relevant. -/
theorem ranking_metrics_bounded_witness :
    (0 ≤ (computeRankingMetrics [⟨"a", 1⟩] ["a"] (some 1)).hitK ∧
      (computeRankingMetrics [⟨"a", 1⟩] ["a"] (some 1)).hitK ≤ 1) ∧
    (0 ≤ (computeRankingMetrics [⟨"a", 1⟩] ["a"] (some 1)).recallK ∧
      (computeRankingMetrics [⟨"a", 1⟩] ["a"] (some 1)).recallK ≤ 1) ∧
    (0 ≤ (computeRankingMetrics [⟨"a", 1⟩] ["a"] (some 1)).mrrK ∧
      (computeRankingMetrics [⟨"a", 1⟩] ["a"] (some 1)).mrrK ≤ 1) ∧
    (0 ≤ (computeRankingMetrics [⟨"a", 1⟩] ["a"] (some 1)).ndcgK ∧
      (computeRankingMetrics [⟨"a", 1⟩] ["a"] (some 1)).ndcgK ≤ 1) ∧
    (0 ≤ (computeRankingMetrics [⟨"a", 1⟩] ["a"] (some 1)).mapK ∧
      (computeRankingMetrics [⟨"a", 1⟩] ["a"] (some 1)).mapK ≤ 1) :=
  ranking_metrics_bounded [⟨"a", 1⟩] ["a"] (some 1) (by decide)

/-- Python `round(x, 3)` on exact values: round to a multiple of 1/1000, ties to
the even multiple. -/
def pyRound3 (x : ℚ) : ℚ :=
  let y := x * 1000
  let f : ℤ := ⌊y⌋
  let r := y - f
  let n : ℤ :=
    if r < 1 / 2 then f
    else if 1 / 2 < r then f + 1
    else if f % 2 = 0 then f else f + 1
  (n : ℚ) / 1000

/-- The unweighted arithmetic mean, as the spec's aggregation sentence states
it (no rounding). -/
def unweightedMean (vals : List ℚ) : ℚ :=
  vals.sum / vals.length

/-- Embedding of `mean_bool` in `eval_dataset` (app/metrics_rag.py, lines
240-242): the rounded mean of the per-row metric values present in the OK rows
(`vals` are those present values), `None` when there are none. -/
def mean_bool (vals : List ℚ) : Option ℚ :=
  if vals.isEmpty then none else some (pyRound3 (vals.sum / vals.length))

/-- Embedding of the suite-level macro-average of one metric key (app/
metrics_rag.py, lines 284-286): collect the per-dataset aggregate values that
are not `None`, and return their rounded mean (`None` when no dataset has the
metric). -/
def macro_metric (vals : List (Option ℚ)) : Option ℚ :=
  let vs := vals.filterMap id
  if vs.isEmpty then none else some (pyRound3 (vs.sum / vs.length))

theorem pyRound3_third : pyRound3 (1 / 3) = 333 / 1000 := by
  simp only [pyRound3]
  rw [show (1 / 3 : ℚ) * 1000 = 1000 / 3 by norm_num]
  rw [show ⌊(1000 / 3 : ℚ)⌋ = 333 by
    rw [Int.floor_eq_iff]
    constructor <;> norm_num]
  rw [if_pos (show (1000 / 3 : ℚ) - ((333 : ℤ) : ℚ) < 1 / 2 by push_cast; norm_num)]
  norm_num

/-- C7 counterexample: three datasets with Hit@k aggregates 1.0, 0.0 and 0.0 —
the suite macro average is round(1/3, 3) = 0.333, which is not the unweighted
arithmetic mean 1/3, so the claimed exact equality with the mean fails. -/
theorem macro_avg_not_exact_mean :
    macro_metric [some 1, some 0, some 0] ≠
      some (unweightedMean [1, 0, 0]) := by
  simp only [macro_metric, unweightedMean]
  rw [show ([some 1, some 0, some 0] : List (Option ℚ)).filterMap id =
    [1, 0, 0] from rfl]
  rw [if_neg (by simp)]
  rw [show (([1, 0, 0] : List ℚ).sum / ([1, 0, 0] : List ℚ).length : ℚ) =
    1 / 3 by norm_num [List.sum_cons]]
  rw [pyRound3_third]
  intro hc
  have := Option.some.inj hc
  norm_num at this

/-- C7 (amended): each suite-level macro_avg metric equals the unweighted
arithmetic mean of that metric over the per-dataset aggregates — rounded to 3
decimal places (each dataset counted once, regardless of its query count); in
particular a 10-query dataset with Hit@k 1.0 and a 1000-query dataset with
Hit@k 0.0 yield macro_avg Hit@k = 0.5. -/
theorem macro_avg_is_rounded_mean :
    (∀ vals : List ℚ, vals ≠ [] →
      macro_metric (vals.map some) = some (pyRound3 (unweightedMean vals))) ∧
    macro_metric [mean_bool (List.replicate 10 1),
      mean_bool (List.replicate 1000 0)] = some (1 / 2) := by
  constructor
  · intro vals hne
    simp only [macro_metric, unweightedMean, List.filterMap_map,
      Function.comp_def, id_eq, List.filterMap_some]
    rw [if_neg (by simpa using hne)]
  · have h10 : mean_bool (List.replicate 10 1) = some 1 := by
      simp only [mean_bool]
      rw [if_neg (by simp)]
      rw [show ((List.replicate 10 (1 : ℚ)).sum /
          (List.replicate 10 (1 : ℚ)).length : ℚ) = 1 by
        rw [List.sum_replicate, List.length_replicate]
        simp [nsmul_eq_mul]]
      simp only [pyRound3]
      rw [show (1 : ℚ) * 1000 = ((1000 : ℤ) : ℚ) by norm_num]
      rw [Int.floor_intCast]
      rw [if_pos (show ((1000 : ℤ) : ℚ) - ((1000 : ℤ) : ℚ) < 1 / 2 by norm_num)]
      norm_num
    have h1000 : mean_bool (List.replicate 1000 0) = some 0 := by
      simp only [mean_bool]
      rw [if_neg (by simp)]
      rw [show ((List.replicate 1000 (0 : ℚ)).sum /
          (List.replicate 1000 (0 : ℚ)).length : ℚ) = 0 by
        rw [List.sum_replicate, smul_zero, zero_div]]
      simp only [pyRound3]
      rw [show (0 : ℚ) * 1000 = ((0 : ℤ) : ℚ) by norm_num]
      rw [Int.floor_intCast]
      rw [if_pos (show ((0 : ℤ) : ℚ) - ((0 : ℤ) : ℚ) < 1 / 2 by norm_num)]
      norm_num
    rw [h10, h1000]
    simp only [macro_metric]
    rw [show ([some 1, some 0] : List (Option ℚ)).filterMap id = [1, 0] from rfl]
    rw [if_neg (by simp)]
    rw [show (([1, 0] : List ℚ).sum / ([1, 0] : List ℚ).length : ℚ) = 1 / 2 by
      norm_num [List.sum_cons]]
    simp only [pyRound3]
    rw [show (1 / 2 : ℚ) * 1000 = ((500 : ℤ) : ℚ) by norm_num]
    rw [Int.floor_intCast]
    rw [if_pos (show ((500 : ℤ) : ℚ) - ((500 : ℤ) : ℚ) < 1 / 2 by norm_num)]
    norm_num

/-- C7 witness: the amended general statement applied to the concrete
per-dataset aggregate values [1, 0]. -/
theorem macro_avg_is_rounded_mean_witness :
    macro_metric (([1, 0] : List ℚ).map some) =
      some (pyRound3 (unweightedMean [1, 0])) :=
  macro_avg_is_rounded_mean.1 [1, 0] (by decide)

/-- A raw benchmark item as found in a bench JSON file: the required field `q`
and the optional field `k` (other fields do not affect loading). -/
structure RawBenchItem where
  q : Option String
  k : Option ℕ
deriving DecidableEq

/-- A validated benchmark item after `load_bench` (`k` defaulted to 8). -/
structure BenchItem where
  q : String
  k : ℕ
deriving DecidableEq

/-- The validation loop of `load_bench` (app/metrics_rag.py, lines 14-22),
carrying the enumeration index used in the error message: the first item
missing `q` raises ValueError for the whole file. -/
def load_benchGo : ℕ → List RawBenchItem → Except String (List BenchItem)
  | _, [] => Except.ok []
  | i, it :: rest =>
    match it.q with
    | none => Except.error ("bench item " ++ toString i ++ " missing q")
    | some qv =>
      (load_benchGo (i + 1) rest).map (fun l => ⟨qv, it.k.getD 8⟩ :: l)

/-- Embedding of `load_bench`: validate every item (raising on the first one
missing `q`) and default `k` to 8. -/
def load_bench (data : List RawBenchItem) : Except String (List BenchItem) :=
  load_benchGo 0 data

/-- The batch path of `eval_dataset`/`main` for one dataset: the bench file is
loaded (and fully validated) first, then each loaded item is evaluated; the
per-item evaluation (subprocess ask + scoring) is abstracted as `runner`. -/
def eval_batch {ρ : Type} (runner : BenchItem → ρ) (data : List RawBenchItem) :
    Except String (List ρ) :=
  (load_bench data).map (fun items => items.map runner)

theorem load_benchGo_error :
    ∀ (data : List RawBenchItem) (i : ℕ),
      (∃ bad ∈ data, bad.q = none) →
      ∃ msg, load_benchGo i data = Except.error msg := by
  intro data
  induction data with
  | nil => intro i h; obtain ⟨bad, hmem, _⟩ := h; cases hmem
  | cons it rest ih =>
    intro i h
    rw [load_benchGo]
    cases hq : it.q with
    | none => exact ⟨_, rfl⟩
    | some qv =>
      obtain ⟨bad, hmem, hbad⟩ := h
      have hbadrest : bad ∈ rest := by
        rcases List.mem_cons.mp hmem with heq | hmem'
        · rw [heq] at hbad; rw [hbad] at hq; cases hq
        · exact hmem'
      obtain ⟨msg, hmsg⟩ := ih (i + 1) ⟨bad, hbadrest, hbad⟩
      exact ⟨msg, by rw [hmsg]; rfl⟩

/-- C9 counterexample: a three-item bench whose middle item lacks `q`.
`load_bench` raises before anything is evaluated, so the whole batch is
aborted and no rows are produced — the error is not fatal for that item only. -/
theorem bench_missing_q_aborts_batch :
    eval_batch (fun it => it.q)
        [⟨some "x", none⟩, ⟨none, none⟩, ⟨some "y", none⟩] =
      Except.error "bench item 1 missing q" := by
  rfl

/-- C9 (amended): a benchmark item missing the required field `q` makes
`load_bench` raise ValueError while loading the bench file, which aborts the
whole batch: for every per-item evaluator, no item of that file is evaluated
and the batch result is an error. -/
theorem bench_missing_q_error {ρ : Type} (runner : BenchItem → ρ)
    (data : List RawBenchItem) (bad : RawBenchItem) (hmem : bad ∈ data)
    (hbad : bad.q = none) :
    ∃ msg, eval_batch runner data = Except.error msg := by
  obtain ⟨msg, hmsg⟩ := load_benchGo_error data 0 ⟨bad, hmem, hbad⟩
  exact ⟨msg, by unfold eval_batch load_bench; rw [hmsg]; rfl⟩

/-- C9 witness: the amended statement on a concrete two-item bench whose second
item lacks `q`. -/
theorem bench_missing_q_error_witness :
    ∃ msg, eval_batch (fun it => it.q)
        [⟨some "x", none⟩, ⟨none, none⟩] = Except.error msg :=
  bench_missing_q_error (fun it => it.q) [⟨some "x", none⟩, ⟨none, none⟩]
    ⟨none, none⟩ (by decide) rfl

end RagSpec
